import Mathlib

/-!
Verification of the server-linking subsystem (spanning-tree protocol engine)
of the InspIRCd chat daemon, as declared in
`src/modules/m_spanningtree/treesocket.h`.

The repository ships only the header (declarations and their documentation
comments); the member-function bodies live outside the provided sources.
Every operation below is therefore a shallow embedding modelled from the
specification, faithful to the spec's words and the header's doc comments,
with the header's data (the `ServerState` enum, the field inventory of
`TreeSocket`) taken directly from the source.
-/

namespace SpanningTree

/-! ## Link state (`treesocket.h:55`) -/

/-- The four socket states, taken verbatim from the `ServerState` enum in
`treesocket.h:55`: `CONNECTING`, `WAIT_AUTH_1`, `WAIT_AUTH_2`, `CONNECTED`. -/
inductive ServerState where
  | CONNECTING
  | WAIT_AUTH_1
  | WAIT_AUTH_2
  | CONNECTED
deriving DecidableEq, Repr

open ServerState

/-- Modelled from the spec (§4.1, §4.3): the events that advance a link
session's state — the transport becoming writable for an outbound socket
(`OnConnected`), the outbound side receiving and validating the peer's
`SERVER` reply (`Outbound_Reply_Server`), and the inbound side receiving
and validating the peer's `SERVER` handshake (`Inbound_Server`). -/
inductive LinkEvent where
  | outboundConnected
  | outboundReplyAccepted
  | inboundServerAccepted
deriving DecidableEq, Repr

/-- Modelled from the spec (§3 Link State, §4.1): the state transition
function of the link state machine.  `none` means the event does not apply
in the given state (no transition is taken). -/
def stepState : ServerState → LinkEvent → Option ServerState
  | CONNECTING, .outboundConnected => some WAIT_AUTH_1
  | WAIT_AUTH_1, .outboundReplyAccepted => some CONNECTED
  | WAIT_AUTH_2, .inboundServerAccepted => some CONNECTED
  | _, _ => none

/-- The prescribed progression of link states (spec §3): outbound sockets
move `CONNECTING → WAIT_AUTH_1 → CONNECTED`, inbound sockets move
`WAIT_AUTH_2 → CONNECTED`.  Two states are adjacent when the second
directly follows the first in this progression. -/
def adjacent (s t : ServerState) : Prop :=
  (s = CONNECTING ∧ t = WAIT_AUTH_1) ∨
  (s = WAIT_AUTH_1 ∧ t = CONNECTED) ∨
  (s = WAIT_AUTH_2 ∧ t = CONNECTED)

/-- Modelled from the spec (§4.5): the commands legal before
synchronization — handshake (`SERVER`), capability (`CAPAB`) and error
(`ERROR`) traffic. -/
def handshakeCommand (cmd : String) : Bool :=
  ["SERVER", "CAPAB", "ERROR"].contains cmd

/-- Modelled from the spec (§4.5, `ProcessLine` at `treesocket.h:375`):
whether a command token is accepted in a given link state.  Before
synchronization only handshake/capability/auth/error commands are legal;
arbitrary state-changing commands are accepted only once `CONNECTED`. -/
def acceptsCommand (s : ServerState) (cmd : String) : Bool :=
  match s with
  | CONNECTED => true
  | CONNECTING => false
  | _ => handshakeCommand cmd

/-! ## Authentication: `MakePass` (`treesocket.h:148`) -/

/-- Modelled from the spec: the one-way hash used by challenge-response
authentication (`hash(secret, challenge)` in §4.3; an HMAC-SHA256 digest in
the implementation, whose body is absent from the provided sources).  The
model mixes the secret and the challenge character-by-character and tags
the result with the scheme marker, mirroring the wire format
`HMAC-SHA256:<digest>`. -/
def hmacDigest (secret challenge : String) : String :=
  String.mk (List.zipWith
    (fun a b => Char.ofNat ((a.toNat + b.toNat) % 128))
    (secret.data ++ challenge.data)
    (challenge.data ++ secret.data))

/-- Modelled from the spec: `hash(secret, challenge)` as sent on the wire,
a scheme marker followed by the digest. -/
def hashPass (secret challenge : String) : String :=
  "HMAC-SHA256:" ++ hmacDigest secret challenge

/-- Modelled from the spec (§4.3): `MakePass(secret, challenge)` — if a
challenge string is present and a compatible hash function was negotiated
(`compat`), returns `hash(secret, challenge)`; otherwise returns the secret
unmodified.  The body of `TreeSocket::MakePass` is absent from the provided
sources; only its declaration at `treesocket.h:148` is. -/
def MakePass (compat : Bool) (secret challenge : String) : String :=
  if compat ∧ challenge ≠ "" then hashPass secret challenge else secret

/-! ## Capability negotiation: `ListDifference` (`treesocket.h:194`) -/

/-- Helper for `splitComma`: walks the character list, accumulating the
current token (reversed) and cutting at every comma. -/
def splitCommaAux : List Char → List Char → List String
  | [], acc => [String.mk acc.reverse]
  | c :: cs, acc =>
      if c = ',' then String.mk acc.reverse :: splitCommaAux cs []
      else splitCommaAux cs (c :: acc)

/-- Splitting a comma-separated identifier list into its items, as the
implementation's `irc::commasepstream` does. -/
def splitComma (s : String) : List String :=
  splitCommaAux s.data []

/-- Modelled from the spec: `HasItem` checks a comma-separated list for an
item (declaration at `treesocket.h:191`). -/
def HasItem (list : String) (item : String) : Bool :=
  (splitComma list).contains item

/-- Modelled from the spec (§4.2, §8): `ListDifference` computes the
order-insensitive, duplicate-insensitive set difference between two
comma-separated identifier lists — the set of identifiers of `one` that do
not appear in `two` (declaration at `treesocket.h:194`). -/
def ListDifference (one two : String) : Finset String :=
  (splitComma one).toFinset \ (splitComma two).toFinset

/-! ## The server topology tree -/

/-- A node of the Topology Directory (spec §2, §3 Server Node, and the
header's preamble comment): a server's name together with its ordered list
of child servers.  The directory forms a tree rooted at the local
server. -/
inductive TreeServer where
  | mk (name : String) (children : List TreeServer)
deriving Repr

/-- All server names in a forest, each subtree listed root-first
(pre-order). -/
def namesList : List TreeServer → List String
  | [] => []
  | .mk n gs :: cs => n :: (namesList gs ++ namesList cs)

/-- The names of the proper descendants of a server node. -/
def descendantNames : TreeServer → List String
  | .mk _ gs => namesList gs

/-- All server names of a node's subtree, the node itself included. -/
def subtreeNames (t : TreeServer) : List String :=
  namesList [t]

/-! ## Server burst: `SendServers` (`treesocket.h:176`) -/

/-- One `SERVER` introduction line of the server burst: the introducing
(parent) server, the introduced server's name, and the advertised
hop-count. -/
structure ServerMsg where
  par : String
  name : String
  hops : Nat
deriving Repr, DecidableEq

/-- Modelled from the spec (§4.4 step 1) and the doc comment at
`treesocket.h:167-176`: `SendServers` recursively walks the topology from
the given parent, emitting for every server one introduction line naming
its parent, its own name and a hop-count drawn from `hopf`.  The hop-counts
are only advertisory: each remote side recomputes them relative to
itself. -/
def SendServers (hopf : String → Nat) (p : String) : List TreeServer → List ServerMsg
  | [] => []
  | .mk n gs :: cs =>
      { par := p, name := n, hops := hopf n } ::
        (SendServers hopf n gs ++ SendServers hopf p cs)

/-- Modelled from the spec (§4.4, doc comment at `treesocket.h:171-175`):
the receiving side's view of the server burst.  The receiver attaches each
introduced server under the named parent and recomputes hop distances
relative to itself, so its view of the topology is exactly the list of
(parent, name) edges — the advertised hop values are ignored. -/
def receiverView (msgs : List ServerMsg) : List (String × String) :=
  msgs.map (fun m => (m.par, m.name))

/-- `parentsOk known msgs` holds when every introduction line names a
parent that is already known when the line arrives (either known
beforehand or introduced by an earlier line) — i.e. the emission respects
ancestor-before-descendant ordering. -/
def parentsOk (known : List String) : List ServerMsg → Prop
  | [] => True
  | m :: ms => m.par ∈ known ∧ parentsOk (m.name :: known) ms

/-! ## Netburst: `DoBurst` (`treesocket.h:247`) -/

/-- One record of the netburst, in the four phases of spec §4.4: server
introductions, global ban (X-line) entries, user introductions, and
channel-membership records. -/
inductive BurstItem where
  | server (name : String)
  | xline (line : String)
  | user (uid : String)
  | member (chan : String) (uid : String)
deriving DecidableEq, Repr

/-- The burst phase of a record: servers (0), X-lines (1), users (2),
channel memberships (3). -/
def phase : BurstItem → Nat
  | .server _ => 0
  | .xline _ => 1
  | .user _ => 2
  | .member _ _ => 3

/-- A channel as the membership burst sees it: its name and the uids of
its members. -/
structure BurstChannel where
  name : String
  members : List String
deriving Repr, DecidableEq

/-- The network state a burst transmits: the topology below the local
server, the global ban list, the user store, and the channel store. -/
structure Network where
  topology : List TreeServer
  xlines : List String
  users : List String
  chans : List BurstChannel

/-- Modelled from the spec (§4.4 step 2, `SendXLines` at
`treesocket.h:234`): the ban-burst records. -/
def SendXLines (xs : List String) : List BurstItem :=
  xs.map BurstItem.xline

/-- Modelled from the spec (§4.4 step 3, `SendUsers` at
`treesocket.h:240`): one record per known user. -/
def SendUsers (us : List String) : List BurstItem :=
  us.map BurstItem.user

/-- Modelled from the spec (§4.4 step 4): the channel-membership records of
the burst, one per (channel, member) pair. -/
def burstMembers (cs : List BurstChannel) : List BurstItem :=
  (cs.map (fun c => c.members.map (BurstItem.member c.name))).flatten

/-- Modelled from the spec (§4.4) and the doc comment at
`treesocket.h:242-247`: `DoBurst` transmits the whole network state in
dependency order — servers first (via `SendServers`), then X-lines, then
users, then channel memberships. -/
def DoBurst (hopf : String → Nat) (myname : String) (net : Network) :
    List BurstItem :=
  (SendServers hopf myname net.topology).map (fun m => BurstItem.server m.name)
    ++ SendXLines net.xlines
    ++ SendUsers net.users
    ++ burstMembers net.chans

/-! ## Cascade removal: `SquitServer` / `Squit` (`treesocket.h:204-210`) -/

/-- A record of the user store: a user's uid and the name of the server
the user is on. -/
structure UserRec where
  uid : String
  server : String
deriving Repr, DecidableEq

/-- The Topology Directory together with the user store, as cascade
removal sees them. -/
structure Directory where
  servers : List String
  users : List UserRec
deriving Repr, DecidableEq

/-- The state cascade removal threads: the directory plus the session's
`num_lost_users` / `num_lost_servers` counters (`treesocket.h:76-77`). -/
structure SquitState where
  dir : Directory
  lostUsers : Nat
  lostServers : Nat
deriving Repr, DecidableEq

/-- Modelled from the spec (§4.5): removing one server from the directory
during cascade removal — quit every user on that server (incrementing the
lost-users counter per user), drop the server record, and increment the
lost-servers counter. -/
def removeNode (srv : String) (st : SquitState) : SquitState :=
  { dir :=
      { servers := st.dir.servers.filter (fun s => !decide (s = srv))
        users := st.dir.users.filter (fun u => !decide (u.server = srv)) }
    lostUsers :=
      st.lostUsers + (st.dir.users.filter (fun u => decide (u.server = srv))).length
    lostServers := st.lostServers + 1 }

/-- Modelled from the spec (§4.5) and the doc comment at
`treesocket.h:198-204`: recursive cascade removal of a forest — for each
node, first squit its children recursively, then remove the node itself. -/
def squitList : List TreeServer → SquitState → SquitState
  | [], st => st
  | .mk n gs :: cs, st => squitList cs (removeNode n (squitList gs st))

/-- Modelled from the spec (§4.5): `SquitServer` removes the given server
and any servers and users below it, counting lost servers and users
(declaration at `treesocket.h:204`). -/
def SquitServer (t : TreeServer) (st : SquitState) : SquitState :=
  squitList [t] st

/-- A link to a directly connected peer: its identifier and its link
state. -/
structure LinkRec where
  id : Nat
  state : ServerState
deriving Repr, DecidableEq

/-- Modelled from the spec (§4.5 split-horizon): re-broadcast of a removal
to every currently synchronized link except the one the removal arrived
from (`origin`); returns the ids of the links the message is sent to. -/
def DoOneToAllButSender (links : List LinkRec) (origin : Nat) : List Nat :=
  (links.filter (fun l => decide (l.state = CONNECTED) && !decide (l.id = origin))).map
    LinkRec.id

/-! ## Channel-membership burst lines: `SendFJoins` (`treesocket.h:231`) -/

/-- The wire length a group of member tokens contributes to an `FJOIN`
line: one separator plus the token, per member. -/
def sumLen (g : List String) : Nat :=
  (g.map (fun m => m.length + 1)).sum

/-- Modelled from the spec (§4.4 step 4, §6) and the doc comment at
`treesocket.h:227-230`: greedy packing of a channel's member tokens into
line-sized groups.  `cur` is the group under construction (reversed);
whenever appending the next member would push the line past `limit`, the
current group is flushed and a fresh line is started for the same
channel. -/
def packMembers (limit hlen : Nat) : List String → List String → List (List String)
  | [], cur => if cur.isEmpty then [] else [cur.reverse]
  | m :: ms, cur =>
      if hlen + sumLen cur + (m.length + 1) > limit ∧ ¬ cur.isEmpty then
        cur.reverse :: packMembers limit hlen ms [m]
      else
        packMembers limit hlen ms (m :: cur)

/-- Rendering one `FJOIN` line: the channel header followed by the member
tokens, each preceded by a separating blank. -/
def fjoinLine (h : String) : List String → String
  | [] => h
  | m :: ms => fjoinLine (h ++ " " ++ m) ms

/-- Modelled from the spec (§4.4 step 4) and the doc comment at
`treesocket.h:227-230`: `SendFJoins` emits the membership of one channel
as one or more protocol lines, each carrying the same channel header, each
within the fixed maximum line length. -/
def SendFJoins (limit : Nat) (header : String) (members : List String) :
    List String :=
  (packMembers limit header.length members []).map (fjoinLine header)

/-! ## Nick collision: `DoCollision` (`treesocket.h:222`) -/

/-- One side of a nick collision: the registration timestamp and the
identifying strings of the colliding user. -/
structure Identity where
  ts : Nat
  ident : String
  host : String
  uid : String
deriving DecidableEq, Repr

/-- Modelled from the spec (§4.5): the secondary deterministic comparison
key used to break timestamp ties — identity/host string ordering.  The
components are kept as a tuple so the comparison is lexicographic over the
identifying strings. -/
def collisionKey (i : Identity) : String × String × String :=
  (i.ident, i.host, i.uid)

/-- The deterministic linear order on collision keys: lexicographic over
the three identifying strings. -/
def keyLess (a b : String × String × String) : Prop :=
  a.1 < b.1 ∨ (a.1 = b.1 ∧ (a.2.1 < b.2.1 ∨ (a.2.1 = b.2.1 ∧ a.2.2 < b.2.2)))

instance (a b : String × String × String) : Decidable (keyLess a b) := by
  unfold keyLess; infer_instance

/-- Modelled from the spec (§4.5): nick collision resolution.  Given the
two colliding identities, the identity with the later (more recent)
registration timestamp loses; equal timestamps are broken by the secondary
deterministic comparison of the identities, so both servers select the
same losing identity.  Returns the losing identity. -/
def DoCollision (a b : Identity) : Identity :=
  if a.ts < b.ts then b
  else if b.ts < a.ts then a
  else if keyLess (collisionKey a) (collisionKey b) then b
  else a

/-! ## Error handling: the `ERROR` command handler (`treesocket.h:259`) -/

/-- What a command handler does to the link: the lines it writes back to
the peer, the diagnostic it displays locally, and whether it terminates
the link afterwards. -/
structure HandlerEffect where
  sent : List String
  displayed : String
  terminates : Bool
deriving Repr, DecidableEq

/-- Modelled from the spec (§6): the handler for `ERROR :<message>` —
always terminates the link after displaying the message, and never itself
sends a reply.  The body of `TreeSocket::Error` is absent from the
provided sources; only its declaration at `treesocket.h:259` is. -/
def ErrorHandler (params : List String) : HandlerEffect :=
  { sent := []
    displayed := "ERROR: " ++ (params.headD "")
    terminates := true }

/-! ## `RemoveStatus` (`treesocket.h:352-355`) -/

/-- A channel as the mode-removal operation sees it: its timestamp and its
three kinds of modes (status modes such as `+qaovh` held per member,
simple modes, parameter modes). -/
structure Channel where
  name : String
  ts : Nat
  statusModes : List (String × Char)
  simpleModes : List Char
  paramModes : List (Char × String)
deriving Repr, DecidableEq

/-- Modelled from the spec: `RemoveStatus` removes all modes from a
channel, including status modes, simple modes and parameter modes, and
does not update the channel's timestamp (doc comment at
`treesocket.h:352-355`; the body is absent from the provided sources). -/
def RemoveStatus (c : Channel) : Channel :=
  { c with statusModes := [], simpleModes := [], paramModes := [] }

/-! # Theorems -/

/-! ## Support lemmas -/

theorem hmacDigest_length (secret challenge : String) :
    (hmacDigest secret challenge).length = secret.length + challenge.length := by
  simp only [hmacDigest, String.length, List.length_zipWith, List.length_append]
  omega

theorem hashPass_length (secret challenge : String) :
    (hashPass secret challenge).length =
      12 + (secret.length + challenge.length) := by
  have h12 : ("HMAC-SHA256:" : String).length = 12 := rfl
  rw [hashPass, String.length_append, hmacDigest_length, h12]

theorem hashPass_ne_secret (secret challenge : String) :
    hashPass secret challenge ≠ secret := by
  intro h
  have := congrArg String.length h
  rw [hashPass_length] at this
  omega

theorem mem_ListDifference (one two x : String) :
    x ∈ ListDifference one two ↔
      x ∈ splitComma one ∧ x ∉ splitComma two := by
  simp [ListDifference]

/-! ## Claim C4 — `MakePass` -/

/-- C4: for every secret, `MakePass(secret, "")` returns the secret
unmodified; and for every secret and non-empty challenge, when a
compatible hash was negotiated, `MakePass(secret, challenge)` returns
`hash(secret, challenge)`, a value that never equals the secret, and the
receiver independently computing `hash(secret, challenge)` from the same
secret obtains exactly the value that was sent. -/
theorem MakePass_auth_correct (secret challenge : String) (h : challenge ≠ "") :
    (∀ compat, MakePass compat secret "" = secret) ∧
    MakePass true secret challenge = hashPass secret challenge ∧
    MakePass true secret challenge ≠ secret ∧
    hashPass secret challenge = MakePass true secret challenge := by
  refine ⟨fun compat => by simp [MakePass], ?_, ?_, ?_⟩
  · simp [MakePass, h]
  · simp only [MakePass, h, ne_eq, not_false_eq_true, and_true, if_true]
    exact hashPass_ne_secret secret challenge
  · simp [MakePass, h]

theorem MakePass_auth_correct_witness :
    (∀ compat, MakePass compat "s3cret" "" = "s3cret") ∧
    MakePass true "s3cret" "chal" = hashPass "s3cret" "chal" ∧
    MakePass true "s3cret" "chal" ≠ "s3cret" ∧
    hashPass "s3cret" "chal" = MakePass true "s3cret" "chal" :=
  MakePass_auth_correct "s3cret" "chal" (by decide)

/-! ## Claim C6 — `ListDifference` -/

/-- C6: `ListDifference` is an order-insensitive, duplicate-insensitive
set difference — its result is unchanged by reordering or duplicating
elements of either argument (captured by: any two argument strings
carrying the same set of identifiers yield the same result) — and
`ListDifference(A, A)` is empty for every `A`. -/
theorem ListDifference_set_difference (A B A' B' : String)
    (hA : (splitComma A').toFinset = (splitComma A).toFinset)
    (hB : (splitComma B').toFinset = (splitComma B).toFinset) :
    ListDifference A' B' = ListDifference A B ∧ ListDifference A A = ∅ := by
  constructor
  · unfold ListDifference
    rw [hA, hB]
  · exact Finset.sdiff_self _

theorem ListDifference_set_difference_witness :
    ListDifference "b,a,a" "c,b,b" = ListDifference "a,b" "b,c" ∧
    ListDifference "a,b" "a,b" = ∅ :=
  ListDifference_set_difference "a,b" "b,c" "b,a,a" "c,b,b" (by decide) (by decide)

/-! ## Claim C9 — the `ERROR` handler -/

/-- C9: handling a received `ERROR :<message>` line always terminates the
link after displaying the message, and never sends any reply line to the
peer. -/
theorem Error_always_terminates_never_replies (params : List String) :
    (ErrorHandler params).terminates = true ∧
    (ErrorHandler params).sent = [] ∧
    (ErrorHandler params).displayed = "ERROR: " ++ params.headD "" :=
  ⟨rfl, rfl, rfl⟩

/-! ## Claim C10 — `RemoveStatus` -/

/-- C10: `RemoveStatus` strips all modes from the target channel — status
modes, simple modes and parameter modes — while leaving the channel's
timestamp (and name) unchanged; any timestamp update must be a separate
operation. -/
theorem RemoveStatus_strips_modes_keeps_ts (c : Channel) :
    (RemoveStatus c).statusModes = [] ∧
    (RemoveStatus c).simpleModes = [] ∧
    (RemoveStatus c).paramModes = [] ∧
    (RemoveStatus c).ts = c.ts ∧
    (RemoveStatus c).name = c.name :=
  ⟨rfl, rfl, rfl, rfl, rfl⟩

/-! ## Claim C5 — the link state machine -/

/-- C5: the link state is always one of exactly the four enum values
`CONNECTING`, `WAIT_AUTH_1`, `WAIT_AUTH_2`, `CONNECTED`; every transition
taken by the state machine moves to an adjacent state in the prescribed
progression (no transition skips a state); and an arbitrary
state-changing command (any command outside the handshake set) is
accepted only in the `CONNECTED` (synchronized) state. -/
theorem linkState_machine_sound (s : ServerState) (e : LinkEvent)
    (t : ServerState) (cmd : String)
    (hstep : stepState s e = some t)
    (hcmd : handshakeCommand cmd = false) :
    (∀ x : ServerState,
        x = CONNECTING ∨ x = WAIT_AUTH_1 ∨ x = WAIT_AUTH_2 ∨ x = CONNECTED) ∧
    adjacent s t ∧
    (∀ x : ServerState, acceptsCommand x cmd = true → x = CONNECTED) := by
  refine ⟨fun x => by cases x <;> simp, ?_, ?_⟩
  · cases s <;> cases e <;> simp_all [stepState, adjacent]
  · intro x hx
    cases x <;> simp_all [acceptsCommand]

theorem linkState_machine_sound_witness :
    (∀ x : ServerState,
        x = CONNECTING ∨ x = WAIT_AUTH_1 ∨ x = WAIT_AUTH_2 ∨ x = CONNECTED) ∧
    adjacent CONNECTING WAIT_AUTH_1 ∧
    (∀ x : ServerState, acceptsCommand x "FJOIN" = true → x = CONNECTED) :=
  linkState_machine_sound CONNECTING .outboundConnected WAIT_AUTH_1 "FJOIN"
    (by decide) (by decide)

/-! ## Claim C7 — `DoCollision` -/

theorem keyLess_asymm (x y : String × String × String) :
    keyLess x y → ¬ keyLess y x := by
  rintro (h1 | ⟨e1, h2 | ⟨e2, h3⟩⟩) (h1' | ⟨e1', h2' | ⟨e2', h3'⟩⟩)
  · exact absurd h1' (lt_asymm h1)
  · exact absurd h1 (e1' ▸ lt_irrefl _)
  · exact absurd h1 (e1' ▸ lt_irrefl _)
  · exact absurd h1' (e1 ▸ lt_irrefl _)
  · exact absurd h2' (lt_asymm h2)
  · exact absurd h2 (e2' ▸ lt_irrefl _)
  · exact absurd h1' (e1 ▸ lt_irrefl _)
  · exact absurd h2' (e2 ▸ lt_irrefl _)
  · exact absurd h3' (lt_asymm h3)

theorem keyLess_total_of_ne (x y : String × String × String) (h : x ≠ y) :
    keyLess x y ∨ keyLess y x := by
  obtain ⟨x1, x2, x3⟩ := x
  obtain ⟨y1, y2, y3⟩ := y
  rcases lt_trichotomy x1 y1 with h1 | h1 | h1
  · exact Or.inl (Or.inl h1)
  · rcases lt_trichotomy x2 y2 with h2 | h2 | h2
    · exact Or.inl (Or.inr ⟨h1, Or.inl h2⟩)
    · rcases lt_trichotomy x3 y3 with h3 | h3 | h3
      · exact Or.inl (Or.inr ⟨h1, Or.inr ⟨h2, h3⟩⟩)
      · exact absurd (by simp [h1, h2, h3]) h
      · exact Or.inr (Or.inr ⟨h1.symm, Or.inr ⟨h2.symm, h3⟩⟩)
    · exact Or.inr (Or.inr ⟨h1.symm, Or.inl h2⟩)
  · exact Or.inr (Or.inl h1)

/-- C7: nick collision resolution between two identities carrying
identical registration timestamps is deterministic and side-symmetric —
evaluating the collision with the roles of the two identities swapped
selects the same losing identity, the tie being broken by the secondary
deterministic comparison of the identities — and the loser is always one
of the two colliding identities. -/
theorem DoCollision_symmetric (a b : Identity)
    (hts : a.ts = b.ts) (hk : collisionKey a ≠ collisionKey b) :
    DoCollision a b = DoCollision b a ∧
    (DoCollision a b = a ∨ DoCollision a b = b) := by
  have h1 : ¬ a.ts < b.ts := by omega
  have h2 : ¬ b.ts < a.ts := by omega
  constructor
  · rcases keyLess_total_of_ne _ _ hk with hlt | hlt
    · have hnlt := keyLess_asymm _ _ hlt
      simp [DoCollision, h1, h2, hlt, hnlt]
    · have hnlt := keyLess_asymm _ _ hlt
      simp [DoCollision, h1, h2, hlt, hnlt]
  · unfold DoCollision
    split_ifs <;> simp

theorem DoCollision_symmetric_witness :
    DoCollision ⟨5, "alice", "host1", "042AAAAAB"⟩ ⟨5, "bob", "host2", "036AAAAAB"⟩
      = DoCollision ⟨5, "bob", "host2", "036AAAAAB"⟩ ⟨5, "alice", "host1", "042AAAAAB"⟩ ∧
    (DoCollision ⟨5, "alice", "host1", "042AAAAAB"⟩ ⟨5, "bob", "host2", "036AAAAAB"⟩
        = ⟨5, "alice", "host1", "042AAAAAB"⟩ ∨
      DoCollision ⟨5, "alice", "host1", "042AAAAAB"⟩ ⟨5, "bob", "host2", "036AAAAAB"⟩
        = ⟨5, "bob", "host2", "036AAAAAB"⟩) :=
  DoCollision_symmetric ⟨5, "alice", "host1", "042AAAAAB"⟩
    ⟨5, "bob", "host2", "036AAAAAB"⟩ rfl (by decide)

/-! ## Claim C3 — `SendServers` hop-counts -/

theorem receiverView_SendServers (f g : String → Nat) (p : String)
    (ts : List TreeServer) :
    receiverView (SendServers f p ts) = receiverView (SendServers g p ts) := by
  induction p, ts using SendServers.induct f with
  | case1 p => simp [SendServers]
  | case2 p n gs cs ih1 ih2 =>
      simp only [SendServers, receiverView, List.map_cons, List.map_append] at *
      rw [ih1, ih2]

theorem parentsOk_mono (E E' : List String) (msgs : List ServerMsg)
    (h : parentsOk E msgs) (hsub : ∀ x ∈ E, x ∈ E') :
    parentsOk E' msgs := by
  induction msgs generalizing E E' with
  | nil => trivial
  | cons m ms ih =>
      obtain ⟨hm, h'⟩ := h
      refine ⟨hsub _ hm, ih (m.name :: E) (m.name :: E') h' ?_⟩
      intro x hx
      rcases List.mem_cons.mp hx with rfl | hx
      · exact List.mem_cons_self _ _
      · exact List.mem_cons_of_mem _ (hsub _ hx)

theorem parentsOk_append (E : List String) (l1 l2 : List ServerMsg)
    (h1 : parentsOk E l1)
    (h2 : parentsOk (l1.map ServerMsg.name ++ E) l2) :
    parentsOk E (l1 ++ l2) := by
  induction l1 generalizing E with
  | nil => simpa using h2
  | cons m l1 ih =>
      obtain ⟨hm, h1'⟩ := h1
      refine ⟨hm, ih (m.name :: E) h1' ?_⟩
      apply parentsOk_mono _ _ _ h2
      intro x hx
      simp only [List.map_cons, List.cons_append, List.mem_cons, List.mem_append] at hx ⊢
      tauto

theorem parentsOk_SendServers (f : String → Nat) (p : String)
    (ts : List TreeServer) :
    ∀ E : List String, p ∈ E → parentsOk E (SendServers f p ts) := by
  induction p, ts using SendServers.induct f with
  | case1 p => intro E _; simp [SendServers, parentsOk]
  | case2 p n gs cs ih1 ih2 =>
      intro E hp
      rw [SendServers]
      refine ⟨hp, ?_⟩
      apply parentsOk_append
      · exact ih1 (n :: E) (by simp)
      · exact ih2 _ (by simp [hp])

/-- C3: the hop-count values emitted by the server phase of burst are
irrelevant to the receiving side as long as they are positive — the
receiver, which recomputes hops relative to itself from the (parent,
name) edges, obtains the same view of the topology for any choice of
positive hop values — and the emission respects ancestor-before-descendant
ordering (every introduction line names an already-known parent). -/
theorem SendServers_positive_hops_correct (f g : String → Nat)
    (root : String) (ts : List TreeServer)
    (hf : ∀ n, 0 < f n) (hg : ∀ n, 0 < g n) :
    receiverView (SendServers f root ts) = receiverView (SendServers g root ts) ∧
    parentsOk [root] (SendServers f root ts) :=
  ⟨receiverView_SendServers f g root ts,
    parentsOk_SendServers f root ts [root] (by simp)⟩

theorem SendServers_positive_hops_correct_witness :
    receiverView (SendServers (fun _ => 1) "me" [.mk "a" [.mk "b" []]])
      = receiverView (SendServers (fun _ => 7) "me" [.mk "a" [.mk "b" []]]) ∧
    parentsOk ["me"] (SendServers (fun _ => 1) "me" [.mk "a" [.mk "b" []]]) :=
  SendServers_positive_hops_correct (fun _ => 1) (fun _ => 7) "me"
    [.mk "a" [.mk "b" []]] (fun _ => Nat.one_pos) (fun _ => Nat.succ_pos 6)

/-! ## Claim C8 — `SendFJoins` line lengths -/

theorem sumLen_cons (m : String) (g : List String) :
    sumLen (m :: g) = (m.length + 1) + sumLen g := by
  simp [sumLen]

theorem sumLen_reverse (g : List String) : sumLen g.reverse = sumLen g := by
  simp [sumLen, List.sum_reverse]

theorem pack_bound (limit hlen : Nat) (ms : List String) :
    ∀ cur, hlen + sumLen cur ≤ limit →
      (∀ m ∈ ms, hlen + (m.length + 1) ≤ limit) →
      ∀ g ∈ packMembers limit hlen ms cur, hlen + sumLen g ≤ limit := by
  induction ms with
  | nil =>
      intro cur hc _ g hg
      rw [packMembers] at hg
      split at hg
      · simp at hg
      · rw [List.mem_singleton.mp hg, sumLen_reverse]
        exact hc
  | cons m ms ih =>
      intro cur hc hm g hg
      rw [packMembers] at hg
      split at hg
      · rcases List.mem_cons.mp hg with rfl | hg'
        · rw [sumLen_reverse]; exact hc
        · refine ih [m] ?_ (fun m' hm' => hm m' (List.mem_cons_of_mem _ hm')) g hg'
          have := hm m (List.mem_cons_self _ _)
          simp [sumLen]
          omega
      · rename_i hcond
        refine ih (m :: cur) ?_ (fun m' hm' => hm m' (List.mem_cons_of_mem _ hm')) g hg
        rw [sumLen_cons]
        by_cases hB : cur.isEmpty = true
        · have hnil := List.isEmpty_iff.mp hB
          have := hm m (List.mem_cons_self _ _)
          subst hnil
          simp [sumLen]
          omega
        · have hA : ¬ (hlen + sumLen cur + (m.length + 1) > limit) :=
            fun h => hcond ⟨h, hB⟩
          omega

theorem pack_join (limit hlen : Nat) (ms : List String) :
    ∀ cur, (packMembers limit hlen ms cur).flatten = cur.reverse ++ ms := by
  induction ms with
  | nil =>
      intro cur
      rw [packMembers]
      split
      · rename_i h
        simp [List.isEmpty_iff.mp (by simpa using h)]
      · simp
  | cons m ms ih =>
      intro cur
      rw [packMembers]
      split
      · simp [ih [m]]
      · rw [ih (m :: cur)]
        simp

theorem fjoinLine_length (g : List String) :
    ∀ h, (fjoinLine h g).length = h.length + sumLen g := by
  induction g with
  | nil => intro h; simp [fjoinLine, sumLen]
  | cons m ms ih =>
      intro h
      rw [fjoinLine, ih, sumLen_cons]
      have h1 : (" " : String).length = 1 := rfl
      rw [String.length_append, String.length_append, h1]
      omega

theorem fjoinLine_eq_append (g : List String) :
    ∀ h, ∃ r, fjoinLine h g = h ++ r := by
  induction g with
  | nil => intro h; exact ⟨"", by simp [fjoinLine]⟩
  | cons m ms ih =>
      intro h
      obtain ⟨r, hr⟩ := ih (h ++ " " ++ m)
      exact ⟨" " ++ m ++ r, by rw [fjoinLine, hr]; simp [String.append_assoc]⟩

/-- C8: every protocol line emitted by the channel-membership burst for a
channel is at most the fixed maximum line length, provided the channel
header fits and each member token fits on a line of its own; a channel
whose membership would produce a longer line is split across multiple
lines each carrying that same channel's header, and no member is
dropped in the split. -/
theorem SendFJoins_line_length (limit : Nat) (header : String)
    (members : List String)
    (hh : header.length ≤ limit)
    (hm : ∀ m ∈ members, header.length + (m.length + 1) ≤ limit) :
    (∀ line ∈ SendFJoins limit header members,
        line.length ≤ limit ∧ ∃ rest, line = header ++ rest) ∧
    (packMembers limit header.length members []).flatten = members := by
  constructor
  · intro line hline
    rw [SendFJoins] at hline
    obtain ⟨g, hg, rfl⟩ := List.mem_map.mp hline
    have hb := pack_bound limit header.length members []
      (by simpa [sumLen] using hh) hm g hg
    constructor
    · rw [fjoinLine_length]; omega
    · exact fjoinLine_eq_append g header
  · simpa using pack_join limit header.length members []

theorem SendFJoins_line_length_witness :
    (∀ line ∈ SendFJoins 20 "FJOIN #c" ["o,036AAAAAB", ",036AAAAAC"],
        line.length ≤ 20 ∧ ∃ rest, line = "FJOIN #c" ++ rest) ∧
    (packMembers 20 ("FJOIN #c" : String).length
        ["o,036AAAAAB", ",036AAAAAC"] []).flatten
      = ["o,036AAAAAB", ",036AAAAAC"] :=
  SendFJoins_line_length 20 "FJOIN #c" ["o,036AAAAAB", ",036AAAAAC"]
    (by decide) (by decide)

/-! ## Claim C1 — `DoBurst` emission order -/

theorem pairwise_phase_of_const {l : List BurstItem} {k : Nat}
    (h : ∀ x ∈ l, phase x = k) :
    l.Pairwise (fun a b => phase a ≤ phase b) :=
  List.pairwise_of_forall_mem_list fun a ha b hb => by
    rw [h a ha, h b hb]

theorem phase_burstMembers {cs : List BurstChannel} {x : BurstItem}
    (hx : x ∈ burstMembers cs) : phase x = 3 := by
  simp only [burstMembers, List.mem_flatten, List.mem_map] at hx
  obtain ⟨_, ⟨c, _, rfl⟩, hx⟩ := hx
  obtain ⟨u, _, rfl⟩ := List.mem_map.mp hx
  rfl

/-- C1: the emission order of the netburst is dependency-safe — the phase
of the emitted records never decreases along the burst (every server
record is emitted before any user record, every user record before any
channel-membership record), and every channel-membership record references
a user whose record is emitted in the user phase of the same burst. -/
theorem DoBurst_dependency_order (hopf : String → Nat) (myname : String)
    (net : Network)
    (hmem : ∀ c ∈ net.chans, ∀ u ∈ c.members, u ∈ net.users) :
    (DoBurst hopf myname net).Pairwise (fun a b => phase a ≤ phase b) ∧
    ∀ ch u, BurstItem.member ch u ∈ DoBurst hopf myname net →
      BurstItem.user u ∈ DoBurst hopf myname net := by
  have hS : ∀ x ∈ (SendServers hopf myname net.topology).map
      (fun m => BurstItem.server m.name), phase x = 0 := by
    intro x hx
    obtain ⟨m, _, rfl⟩ := List.mem_map.mp hx
    rfl
  have hX : ∀ x ∈ SendXLines net.xlines, phase x = 1 := by
    intro x hx
    obtain ⟨m, _, rfl⟩ := List.mem_map.mp hx
    rfl
  have hU : ∀ x ∈ SendUsers net.users, phase x = 2 := by
    intro x hx
    obtain ⟨m, _, rfl⟩ := List.mem_map.mp hx
    rfl
  constructor
  · rw [DoBurst]
    rw [List.pairwise_append]
    refine ⟨?_, pairwise_phase_of_const (fun x hx => phase_burstMembers hx), ?_⟩
    · rw [List.pairwise_append]
      refine ⟨?_, pairwise_phase_of_const hU, ?_⟩
      · rw [List.pairwise_append]
        refine ⟨pairwise_phase_of_const hS, pairwise_phase_of_const hX, ?_⟩
        · intro a ha b hb
          rw [hS a ha, hX b hb]
          omega
      · intro a ha b hb
        rw [hU b hb]
        rcases List.mem_append.mp ha with h | h
        · rw [hS a h]; omega
        · rw [hX a h]; omega
    · intro a ha b hb
      rw [phase_burstMembers hb]
      rcases List.mem_append.mp ha with h | h
      · rcases List.mem_append.mp h with h' | h'
        · rw [hS a h']; omega
        · rw [hX a h']; omega
      · rw [hU a h]; omega
  · intro ch u hmem'
    simp only [DoBurst, List.mem_append] at hmem' ⊢
    have hu : u ∈ net.users := by
      rcases hmem' with ((h | h) | h) | h
      · obtain ⟨m, _, hm⟩ := List.mem_map.mp h
        exact absurd hm (by simp)
      · obtain ⟨m, _, hm⟩ := List.mem_map.mp h
        exact absurd hm (by simp [SendXLines])
      · obtain ⟨m, _, hm⟩ := List.mem_map.mp h
        exact absurd hm (by simp [SendUsers])
      · simp only [burstMembers, List.mem_flatten, List.mem_map] at h
        obtain ⟨_, ⟨c, hc, rfl⟩, hx⟩ := h
        obtain ⟨u', hu', he⟩ := List.mem_map.mp hx
        injection he with h1 h2
        subst h2
        exact hmem c hc _ hu'
    refine Or.inl (Or.inr ?_)
    simp [SendUsers, hu]

theorem DoBurst_dependency_order_witness :
    ((DoBurst (fun _ => 1) "me"
        ⟨[.mk "s1" []], ["gline1"], ["036AAAAAB", "036AAAAAC"],
          [⟨"#c", ["036AAAAAB"]⟩]⟩).Pairwise
      (fun a b => phase a ≤ phase b)) ∧
    ∀ ch u, BurstItem.member ch u ∈ DoBurst (fun _ => 1) "me"
        ⟨[.mk "s1" []], ["gline1"], ["036AAAAAB", "036AAAAAC"],
          [⟨"#c", ["036AAAAAB"]⟩]⟩ →
      BurstItem.user u ∈ DoBurst (fun _ => 1) "me"
        ⟨[.mk "s1" []], ["gline1"], ["036AAAAAB", "036AAAAAC"],
          [⟨"#c", ["036AAAAAB"]⟩]⟩ :=
  DoBurst_dependency_order (fun _ => 1) "me"
    ⟨[.mk "s1" []], ["gline1"], ["036AAAAAB", "036AAAAAC"],
      [⟨"#c", ["036AAAAAB"]⟩]⟩
    (by decide)

/-! ## Claim C2 — cascade removal -/

theorem squit_servers (ts : List TreeServer) (st : SquitState) :
    (squitList ts st).dir.servers
      = st.dir.servers.filter (fun s => !decide (s ∈ namesList ts)) := by
  induction ts, st using squitList.induct with
  | case1 st => simp [squitList, namesList]
  | case2 n gs cs st ih1 ih2 =>
      rw [squitList, ih2]
      simp only [removeNode]
      rw [ih1, List.filter_filter, List.filter_filter]
      refine List.filter_congr ?_
      intro x _
      by_cases h1 : x = n <;> by_cases h2 : x ∈ namesList gs <;>
        by_cases h3 : x ∈ namesList cs <;>
        simp [namesList, h1, h2, h3]

theorem squit_users (ts : List TreeServer) (st : SquitState) :
    (squitList ts st).dir.users
      = st.dir.users.filter (fun u => !decide (u.server ∈ namesList ts)) := by
  induction ts, st using squitList.induct with
  | case1 st => simp [squitList, namesList]
  | case2 n gs cs st ih1 ih2 =>
      rw [squitList, ih2]
      simp only [removeNode]
      rw [ih1, List.filter_filter, List.filter_filter]
      refine List.filter_congr ?_
      intro x _
      by_cases h1 : x.server = n <;> by_cases h2 : x.server ∈ namesList gs <;>
        by_cases h3 : x.server ∈ namesList cs <;>
        simp [namesList, h1, h2, h3]

theorem squit_lostServers (ts : List TreeServer) (st : SquitState) :
    (squitList ts st).lostServers = st.lostServers + (namesList ts).length := by
  induction ts, st using squitList.induct with
  | case1 st => simp [squitList, namesList]
  | case2 n gs cs st ih1 ih2 =>
      rw [squitList, ih2]
      simp only [removeNode]
      rw [ih1]
      simp [namesList]
      omega

theorem length_filter_split (p q : α → Bool) (l : List α) :
    (l.filter (fun x => p x || q x)).length
      = (l.filter p).length + ((l.filter (fun x => !(p x))).filter q).length := by
  induction l with
  | nil => simp
  | cons a l ih =>
      by_cases hp : p a <;> by_cases hq : q a <;>
        simp [hp, hq, ih] <;> omega

theorem squit_lostUsers (ts : List TreeServer) (st : SquitState) :
    (squitList ts st).lostUsers
      = st.lostUsers
        + (st.dir.users.filter (fun u => decide (u.server ∈ namesList ts))).length := by
  induction ts, st using squitList.induct with
  | case1 st => simp [squitList, namesList]
  | case2 n gs cs st ih1 ih2 =>
      rw [squitList, ih2]
      simp only [removeNode]
      rw [ih1, squit_users]
      have hsplit : st.dir.users.filter
            (fun u => decide (u.server ∈ namesList (TreeServer.mk n gs :: cs)))
          = st.dir.users.filter
            (fun u => decide (u.server ∈ namesList gs)
              || (decide (u.server = n) || decide (u.server ∈ namesList cs))) := by
        refine List.filter_congr ?_
        intro x _
        by_cases h1 : x.server = n <;> by_cases h2 : x.server ∈ namesList gs <;>
          by_cases h3 : x.server ∈ namesList cs <;>
          simp [namesList, h1, h2, h3]
      rw [hsplit, length_filter_split, length_filter_split]
      omega

theorem DoOneToAllButSender_exactly_once (links : List LinkRec) (origin : Nat)
    (hnd : (links.map LinkRec.id).Nodup) :
    (DoOneToAllButSender links origin).Nodup ∧
    origin ∉ DoOneToAllButSender links origin ∧
    ∀ l ∈ links,
      (l.id ∈ DoOneToAllButSender links origin ↔
        l.state = CONNECTED ∧ l.id ≠ origin) := by
  refine ⟨?_, ?_, ?_⟩
  · exact List.Nodup.sublist
      (List.Sublist.map LinkRec.id (List.filter_sublist links)) hnd
  · intro h
    simp only [DoOneToAllButSender, List.mem_map, List.mem_filter] at h
    obtain ⟨l, ⟨_, hl⟩, rfl⟩ := h
    simp at hl
  · intro l hl
    constructor
    · intro h
      simp only [DoOneToAllButSender, List.mem_map, List.mem_filter] at h
      obtain ⟨l', ⟨hl', hc⟩, hid⟩ := h
      have : l' = l := List.inj_on_of_nodup_map hnd hl' hl hid
      subst this
      simp only [Bool.and_eq_true, decide_eq_true_eq, Bool.not_eq_true',
        decide_eq_false_iff_not] at hc
      exact hc
    · intro ⟨hs, hne⟩
      simp only [DoOneToAllButSender, List.mem_map, List.mem_filter]
      exact ⟨l, ⟨hl, by simp [hs, hne]⟩, rfl⟩

/-- C2: cascade removal of a server node with `N` descendant servers and
`M` dependent users removes exactly the subtree's servers (hence `N + 1`
of them) and exactly the `M` users on those servers from the Topology
Directory, records those counts in the session's lost-servers and
lost-users counters, and the removal is re-broadcast exactly once to each
remaining synchronized link and never to the link the removal arrived
from. -/
theorem Squit_cascade_exact (t : TreeServer) (st : SquitState)
    (links : List LinkRec) (origin : Nat)
    (h0u : st.lostUsers = 0) (h0s : st.lostServers = 0)
    (hnd : (links.map LinkRec.id).Nodup) :
    (SquitServer t st).lostServers = (descendantNames t).length + 1 ∧
    (SquitServer t st).lostUsers
      = (st.dir.users.filter
          (fun u => decide (u.server ∈ subtreeNames t))).length ∧
    (SquitServer t st).dir.servers
      = st.dir.servers.filter (fun s => !decide (s ∈ subtreeNames t)) ∧
    (SquitServer t st).dir.users
      = st.dir.users.filter (fun u => !decide (u.server ∈ subtreeNames t)) ∧
    (DoOneToAllButSender links origin).Nodup ∧
    origin ∉ DoOneToAllButSender links origin ∧
    ∀ l ∈ links,
      (l.id ∈ DoOneToAllButSender links origin ↔
        l.state = CONNECTED ∧ l.id ≠ origin) := by
  obtain ⟨hb1, hb2, hb3⟩ := DoOneToAllButSender_exactly_once links origin hnd
  refine ⟨?_, ?_, ?_, ?_, hb1, hb2, hb3⟩
  · rw [SquitServer, squit_lostServers, h0s]
    cases t with
    | mk n gs => simp [namesList, descendantNames]
  · rw [SquitServer, squit_lostUsers, h0u, subtreeNames]
    omega
  · rw [SquitServer, squit_servers, subtreeNames]
  · rw [SquitServer, squit_users, subtreeNames]

theorem Squit_cascade_exact_witness :
    (SquitServer (.mk "a" [.mk "b" []])
        ⟨⟨["me", "a", "b"], [⟨"u1", "a"⟩, ⟨"u2", "me"⟩, ⟨"u3", "b"⟩]⟩, 0, 0⟩).lostServers
      = (descendantNames (.mk "a" [.mk "b" []])).length + 1 ∧
    (SquitServer (.mk "a" [.mk "b" []])
        ⟨⟨["me", "a", "b"], [⟨"u1", "a"⟩, ⟨"u2", "me"⟩, ⟨"u3", "b"⟩]⟩, 0, 0⟩).lostUsers
      = (([⟨"u1", "a"⟩, ⟨"u2", "me"⟩, ⟨"u3", "b"⟩] : List UserRec).filter
          (fun u => decide (u.server ∈ subtreeNames (.mk "a" [.mk "b" []])))).length ∧
    (SquitServer (.mk "a" [.mk "b" []])
        ⟨⟨["me", "a", "b"], [⟨"u1", "a"⟩, ⟨"u2", "me"⟩, ⟨"u3", "b"⟩]⟩, 0, 0⟩).dir.servers
      = (["me", "a", "b"] : List String).filter
          (fun s => !decide (s ∈ subtreeNames (.mk "a" [.mk "b" []]))) ∧
    (SquitServer (.mk "a" [.mk "b" []])
        ⟨⟨["me", "a", "b"], [⟨"u1", "a"⟩, ⟨"u2", "me"⟩, ⟨"u3", "b"⟩]⟩, 0, 0⟩).dir.users
      = ([⟨"u1", "a"⟩, ⟨"u2", "me"⟩, ⟨"u3", "b"⟩] : List UserRec).filter
          (fun u => !decide (u.server ∈ subtreeNames (.mk "a" [.mk "b" []]))) ∧
    (DoOneToAllButSender [⟨1, CONNECTED⟩, ⟨2, WAIT_AUTH_1⟩, ⟨3, CONNECTED⟩] 1).Nodup ∧
    1 ∉ DoOneToAllButSender [⟨1, CONNECTED⟩, ⟨2, WAIT_AUTH_1⟩, ⟨3, CONNECTED⟩] 1 ∧
    ∀ l ∈ ([⟨1, CONNECTED⟩, ⟨2, WAIT_AUTH_1⟩, ⟨3, CONNECTED⟩] : List LinkRec),
      (l.id ∈ DoOneToAllButSender [⟨1, CONNECTED⟩, ⟨2, WAIT_AUTH_1⟩, ⟨3, CONNECTED⟩] 1 ↔
        l.state = CONNECTED ∧ l.id ≠ 1) :=
  Squit_cascade_exact (.mk "a" [.mk "b" []])
    ⟨⟨["me", "a", "b"], [⟨"u1", "a"⟩, ⟨"u2", "me"⟩, ⟨"u3", "b"⟩]⟩, 0, 0⟩
    [⟨1, CONNECTED⟩, ⟨2, WAIT_AUTH_1⟩, ⟨3, CONNECTED⟩] 1
    rfl rfl (by decide)

end SpanningTree
